import Mathlib

/-!
Shallow embedding of the Merkle-tree core of the repository
(`src/primitives/src/merkle_tree/mod.rs` and
`src/primitives/src/merkle_tree/merkle_tree_traits.rs`).

Machine integers are modelled as `Nat`: a `u64` value is a `Nat` below
`2 ^ 64` and a `usize` value (64-bit platform) is a `Nat` below `2 ^ 64`.
None of the arithmetic in the embedded functions can overflow
(`pos % arity` and `pos / arity` never exceed `pos`), so no explicit
reduction modulo `2 ^ 64` is needed; Rust's panics (division by zero,
`Option::unwrap` on `None`) are modelled by `Option.none` results.
-/

namespace Jellyfish

/-- Embedding of `<u64 as ToTraversalPath>::to_traverse_path` from
`src/primitives/src/merkle_tree/mod.rs`:
`for _i in 0..height { ret.push((pos % arity) as usize); pos /= arity; }`.
Each loop iteration performs `pos % arity` and `pos / arity`, which panic in
Rust when `arity = 0`; the panic is modelled as `none`. -/
def u64ToTraversePath : Nat → Nat → Nat → Option (List Nat)
  | _, 0, _ => some []
  | pos, h + 1, arity =>
    if arity = 0 then none
    else
      match u64ToTraversePath (pos / arity) h arity with
      | some rest => some (pos % arity :: rest)
      | none => none

/-- Embedding of `<BigUint as ToTraversalPath>::to_traverse_path` from
`src/primitives/src/merkle_tree/mod.rs`:
`for _i in 0..height { ret.push((&pos % arity).to_usize().unwrap(); pos /= arity; }`.
`BigUint` remainder/division by zero panics (`none`); `to_usize()` returns
`None` (and `unwrap` panics) when the remainder does not fit a 64-bit
`usize`, modelled by the `pos % arity < 2 ^ 64` guard. -/
def biguintToTraversePath : Nat → Nat → Nat → Option (List Nat)
  | _, 0, _ => some []
  | pos, h + 1, arity =>
    if arity = 0 then none
    else if pos % arity < 2 ^ 64 then
      match biguintToTraversePath (pos / arity) h arity with
      | some rest => some (pos % arity :: rest)
      | none => none
    else none

/-- Modelled from the spec: the Index/Path codec loop of spec §4.1
(`iteratively take index mod arity as the next selector, then
index ← index / arity, for exactly height iterations`), total on `Nat`.
For `arity ≥ 1` it agrees with both embedded implementations; the modelled
tree variants below (whose source files `append_only.rs` and
`sparse_merkle_tree.rs` are not in the provided sources) use it to derive
traversal paths. -/
def traversePathLoop : Nat → Nat → Nat → List Nat
  | _, 0, _ => []
  | pos, h + 1, a => pos % a :: traversePathLoop (pos / a) h a

/-- Modelled from the spec: the error taxonomy of spec §7 (the crate's
`PrimitivesError` enum lives in `errors.rs`, which is not among the provided
sources; the `InternalError(String)` shape is visible from its uses in
`mod.rs`). -/
inductive PrimitivesError where
  | CapacityExceeded : PrimitivesError
  | InvalidProof : PrimitivesError
  | MismatchedRoot : PrimitivesError
  | MalformedProof : PrimitivesError
  | InternalError : String → PrimitivesError
deriving DecidableEq

/-- Embedding of `enum LookupResult<F, P>` from
`src/primitives/src/merkle_tree/mod.rs` (identical in
`merkle_tree_traits.rs`). -/
inductive LookupResult (F P : Type) where
  | Ok : F → P → LookupResult F P
  | NotInMemory : LookupResult F P
  | EmptyLeaf : LookupResult F P
deriving DecidableEq

/-- Embedding of `LookupResult::expect_ok` from
`src/primitives/src/merkle_tree/mod.rs` (identical in
`merkle_tree_traits.rs`). -/
def LookupResult.expect_ok {F P : Type} : LookupResult F P → Except PrimitivesError (F × P)
  | .Ok x proof => .ok (x, proof)
  | .NotInMemory => .error (.InternalError "Expected Ok, found NotInMemory")
  | .EmptyLeaf => .error (.InternalError "Expected Ok, found EmptyLeaf")

/-- Embedding of the provided default method
`AppendableMerkleTreeScheme::extend` from
`src/primitives/src/merkle_tree/mod.rs`
(`for elem in elems { self.push(elem)?; } Ok(())`), generic over the
`push` operation of the concrete tree. A Rust `&mut self` method is
modelled by explicit state passing: `pushFn s e` returns the state after
the push together with `none` on success or `some err` on failure. -/
def extendPush {S E : Type} (pushFn : S → E → S × Option PrimitivesError) :
    S → List E → S × Option PrimitivesError
  | s, [] => (s, none)
  | s, e :: rest =>
    match pushFn s e with
    | (s', none) => extendPush pushFn s' rest
    | (s', some err) => (s', some err)

/-- Statement-level predicate for claim C6: every `push` performed in the
sequential run over `elems`, starting from state `s`, returns `Ok`. -/
def allPushesOk {S E : Type} (pushFn : S → E → S × Option PrimitivesError) :
    S → List E → Bool
  | _, [] => true
  | s, e :: rest =>
    match pushFn s e with
    | (s', none) => allPushesOk pushFn s' rest
    | (_, some _) => false

/-- Toy instantiation of a `push` operation (a list accumulator with
capacity 2), used only to witness the `extend` theorem on concrete
inputs. -/
def toyPush (s : List Nat) (e : Nat) : List Nat × Option PrimitivesError :=
  if 2 ≤ s.length then (s, some .CapacityExceeded) else (s ++ [e], none)

/-- Embedding of `struct MerkleCommitment` from
`src/primitives/src/merkle_tree/merkle_tree_traits.rs` (generic over the
index type `I`; the `mod.rs` version is the instance `I = u64`). The Rust
`#[derive(Eq, PartialEq)]` compares all three fields componentwise, which
is exactly Lean's propositional equality of structures. -/
structure MerkleCommitment (I T : Type) where
  root_value : T
  height : Nat
  num_leaves : I
deriving DecidableEq

section MerkleModel

variable {E T : Type}

/-- Modelled from the spec: the digest of the subtree of the given level
whose leaves start at position `start` (spec §3, root invariant: "Root
digest is always the digest obtained by folding all present leaves
... bottom-up", and spec §4.2: `children` always has exactly `ARITY`
entries). `hashNode` is the Digest Capability's `digest`, `a` the arity,
`L` the per-position leaf digest. The concrete tree implementations
(`append_only.rs`, `sparse_merkle_tree.rs`) are not among the provided
sources. -/
def nodeDigest (hashNode : List T → T) (a : Nat) (L : Nat → T) : Nat → Nat → T
  | 0, start => L start
  | lvl + 1, start =>
    hashNode ((List.range a).map fun t => nodeDigest hashNode a L lvl (start + t * a ^ lvl))

/-- Modelled from the spec: the group of `ARITY - 1` sibling digests at
`lvl` levels above the leaves, for the path of position `p` (spec §3,
MembershipProof: "an ordered sequence of height sibling-digest groups,
each group holding the ARITY-1 sibling digests at that level"); siblings
are listed in child-index order with the path's own child omitted. -/
def siblingGroup (hashNode : List T → T) (a : Nat) (L : Nat → T) (lvl p : Nat) : List T :=
  ((List.range (p / a ^ lvl % a)).map fun t =>
    nodeDigest hashNode a L lvl (a ^ (lvl + 1) * (p / a ^ (lvl + 1)) + t * a ^ lvl)) ++
    ((List.range (a - 1 - p / a ^ lvl % a)).map fun t =>
      nodeDigest hashNode a L lvl
        (a ^ (lvl + 1) * (p / a ^ (lvl + 1)) + (p / a ^ lvl % a + 1 + t) * a ^ lvl))

/-- Modelled from the spec: the `height` sibling-digest groups of the
membership proof for position `p`, in bottom-up order (spec §3). -/
def buildProofSiblings (hashNode : List T → T) (a : Nat) (L : Nat → T) (h p : Nat) :
    List (List T) :=
  (List.range h).map fun lvl => siblingGroup hashNode a L lvl p

/-- Modelled from the spec: a membership proof carries the leaf's own value
together with the sibling-digest groups (spec §3: the groups are
"sufficient, together with the leaf's own value and position, to recompute
the root"). -/
structure MembershipProof (E T : Type) where
  elem : E
  siblings : List (List T)

/-- Modelled from the spec: fold a leaf digest through the digest
capability along the path, inserting the running digest at the selector's
child position within each sibling group, in bottom-up order (spec §4.4,
`verify`). -/
def foldPath (hashNode : List T → T) (steps : List (Nat × List T)) (leafDig : T) : T :=
  steps.foldl (fun cur st => hashNode (st.2.take st.1 ++ cur :: st.2.drop st.1)) leafDig

/-- Modelled from the spec: `verify` (spec §4.4): fail with
`MalformedProof` if the proof's sibling-group count does not equal the
height or a group does not have `ARITY - 1` entries; otherwise recompute
the path from `pos`, fold the leaf digest through the sibling groups in
bottom-up order and compare against the root. -/
def verifyAgainst [DecidableEq T] (hashNode : List T → T) (hashLeaf : Nat → E → T)
    (a : Nat) (rootV : T) (ht p : Nat) (pf : MembershipProof E T) :
    Except PrimitivesError Bool :=
  if pf.siblings.length ≠ ht then .error .MalformedProof
  else if pf.siblings.any fun g => decide (g.length ≠ a - 1) then .error .MalformedProof
  else .ok (decide
    (foldPath hashNode ((traversePathLoop p ht a).zip pf.siblings) (hashLeaf p pf.elem) = rootV))

/-- Modelled from the spec: the dense append-only tree variant owns its
height and the contiguous list of leaves `0..num_leaves` (spec §3,
§4.5). -/
structure AppendTree (E : Type) where
  height : Nat
  elems : List E

/-- Modelled from the spec: the leaf-digest function of a dense tree —
present positions digest via `digest_leaf`, absent positions digest as the
canonical empty value (spec §3: "default NodeValue for
empty/unmaterialized subtrees"). -/
def leafFun (hashLeaf : Nat → E → T) (emptyVal : T) (elems : List E) : Nat → T := fun p =>
  match elems.get? p with
  | some e => hashLeaf p e
  | none => emptyVal

/-- Modelled from the spec: `from_elems(height, elements)` fails with
`CapacityExceeded` if `len(elements) > arity^height`, otherwise builds the
tree with contiguous leaves (spec §4.4). -/
def fromElems (a h : Nat) (elems : List E) : Except PrimitivesError (AppendTree E) :=
  if a ^ h < elems.length then .error .CapacityExceeded else .ok ⟨h, elems⟩

/-- Modelled from the spec: the root of an append-only tree is the
bottom-up fold of all its leaves (spec §3). -/
def AppendTree.root (hashNode : List T → T) (hashLeaf : Nat → E → T) (emptyVal : T)
    (a : Nat) (t : AppendTree E) : T :=
  nodeDigest hashNode a (leafFun hashLeaf emptyVal t.elems) t.height 0

/-- Modelled from the spec: `lookup(pos)` on a dense tree returns
`EmptyLeaf` beyond the occupied range, otherwise the element and a freshly
constructed proof (spec §4.4). -/
def AppendTree.lookup (hashNode : List T → T) (hashLeaf : Nat → E → T) (emptyVal : T)
    (a : Nat) (t : AppendTree E) (p : Nat) : LookupResult E (MembershipProof E T) :=
  match t.elems.get? p with
  | some e =>
    .Ok e ⟨e, buildProofSiblings hashNode a (leafFun hashLeaf emptyVal t.elems) t.height p⟩
  | none => .EmptyLeaf

/-- Modelled from the spec: `verify(pos, proof)` on a dense tree checks the
proof against the tree's current root (spec §4.4). -/
def AppendTree.verify [DecidableEq T] (hashNode : List T → T) (hashLeaf : Nat → E → T)
    (emptyVal : T) (a : Nat) (t : AppendTree E) (p : Nat) (pf : MembershipProof E T) :
    Except PrimitivesError Bool :=
  verifyAgainst hashNode hashLeaf a (t.root hashNode hashLeaf emptyVal a) t.height p pf

/-- Modelled from the spec: the universal/sparse tree variant owns its
height and a sparse position-to-element map (spec §4.6), modelled as an
association list. -/
structure SparseTree (E : Type) where
  height : Nat
  kvs : List (Nat × E)

/-- Modelled from the spec: the leaf-digest function of a sparse tree —
"absent positions digest as a canonical empty leaf value" (spec §3). -/
def leafFunKV (hashLeaf : Nat → E → T) (emptyVal : T) (kvs : List (Nat × E)) : Nat → T :=
  fun p =>
    match kvs.lookup p with
    | some e => hashLeaf p e
    | none => emptyVal

/-- Modelled from the spec: `from_kv_set(height, pairs)` bulk-loads a
sparse map whose positions must lie in `[0, capacity)` (spec §4.6 together
with §3's capacity invariant); a position at or beyond `arity^height` is a
capacity error. -/
def fromKvSet (a h : Nat) (kvs : List (Nat × E)) : Except PrimitivesError (SparseTree E) :=
  if kvs.any fun kv => decide (a ^ h ≤ kv.1) then .error .CapacityExceeded
  else .ok ⟨h, kvs⟩

/-- Modelled from the spec: the root of a sparse tree (spec §3, §4.6). -/
def SparseTree.root (hashNode : List T → T) (hashLeaf : Nat → E → T) (emptyVal : T)
    (a : Nat) (t : SparseTree E) : T :=
  nodeDigest hashNode a (leafFunKV hashLeaf emptyVal t.kvs) t.height 0

/-- Modelled from the spec: `lookup(pos)` on a sparse tree returns
`EmptyLeaf` for never-assigned positions, otherwise the element and a
freshly constructed proof (spec §4.4, §4.6). -/
def SparseTree.lookup (hashNode : List T → T) (hashLeaf : Nat → E → T) (emptyVal : T)
    (a : Nat) (t : SparseTree E) (p : Nat) : LookupResult E (MembershipProof E T) :=
  match t.kvs.lookup p with
  | some e =>
    .Ok e ⟨e, buildProofSiblings hashNode a (leafFunKV hashLeaf emptyVal t.kvs) t.height p⟩
  | none => .EmptyLeaf

/-- Modelled from the spec: `verify(pos, proof)` on a sparse tree (spec
§4.4). -/
def SparseTree.verify [DecidableEq T] (hashNode : List T → T) (hashLeaf : Nat → E → T)
    (emptyVal : T) (a : Nat) (t : SparseTree E) (p : Nat) (pf : MembershipProof E T) :
    Except PrimitivesError Bool :=
  verifyAgainst hashNode hashLeaf a (t.root hashNode hashLeaf emptyVal a) t.height p pf

/-- One-level contraction of a leaf-digest function: position `q` digests
to the node digest of the arity-wide block of leaves starting at
`a * q`. Proof device for the bottom-up fold lemma. -/
def levelUp (hashNode : List T → T) (a : Nat) (L : Nat → T) : Nat → T := fun q =>
  hashNode ((List.range a).map fun t => L (a * q + t))

/-- Toy digest-capability instance (node digest over `Nat`), used only to
witness the round-trip theorem on concrete inputs. -/
def toyHashNode (l : List Nat) : Nat := 2 * l.sum + 1

/-- Toy leaf-digest instance, used only to witness the round-trip theorem
on concrete inputs. -/
def toyHashLeaf (p e : Nat) : Nat := p + 3 * e + 2

end MerkleModel

/-! ## Codec lemmas -/

theorem traversePathLoop_closedForm (a : Nat) :
    ∀ h pos, traversePathLoop pos h a = (List.range h).map fun j => pos / a ^ j % a := by
  intro h
  induction h with
  | zero => intro pos; rfl
  | succ h ih =>
    intro pos
    rw [traversePathLoop, ih (pos / a), List.range_succ_eq_map, List.map_cons, List.map_map]
    have htail : (fun j => pos / a / a ^ j % a) = (fun j => pos / a ^ j % a) ∘ Nat.succ := by
      funext j
      simp only [Function.comp_apply]
      rw [Nat.div_div_eq_div_mul, ← pow_succ']
    have hhead : pos % a = pos / a ^ 0 % a := by simp
    rw [htail, hhead]

theorem traversePathLoop_length (a : Nat) :
    ∀ h pos, (traversePathLoop pos h a).length = h := by
  intro h
  induction h with
  | zero => intro pos; rfl
  | succ h ih => intro pos; rw [traversePathLoop, List.length_cons, ih]

theorem traversePathLoop_lt (a : Nat) (ha : a ≠ 0) :
    ∀ h pos x, x ∈ traversePathLoop pos h a → x < a := by
  intro h pos x hx
  rw [traversePathLoop_closedForm] at hx
  obtain ⟨j, -, rfl⟩ := List.mem_map.mp hx
  exact Nat.mod_lt _ (Nat.pos_of_ne_zero ha)

theorem u64ToTraversePath_eq_loop (a : Nat) (ha : a ≠ 0) :
    ∀ h pos, u64ToTraversePath pos h a = some (traversePathLoop pos h a) := by
  intro h
  induction h with
  | zero => intro pos; rfl
  | succ h ih =>
    intro pos
    rw [u64ToTraversePath, if_neg ha, ih (pos / a)]
    rfl

theorem biguintToTraversePath_eq_loop (a : Nat) (ha : a ≠ 0) (hsize : a < 2 ^ 64) :
    ∀ h pos, biguintToTraversePath pos h a = some (traversePathLoop pos h a) := by
  intro h
  induction h with
  | zero => intro pos; rfl
  | succ h ih =>
    intro pos
    rw [biguintToTraversePath, if_neg ha,
      if_pos (lt_trans (Nat.mod_lt pos (Nat.pos_of_ne_zero ha)) hsize), ih (pos / a)]
    rfl

theorem u64ToTraversePath_congr (a : Nat) :
    ∀ h p q, (∀ j < h, p / a ^ j % a = q / a ^ j % a) →
      u64ToTraversePath p h a = u64ToTraversePath q h a := by
  intro h
  induction h with
  | zero => intros; rfl
  | succ h ih =>
    intro p q hagree
    by_cases ha : a = 0
    · subst ha; rfl
    · have h0 : p % a = q % a := by simpa using hagree 0 (Nat.succ_pos h)
      have hrec : u64ToTraversePath (p / a) h a = u64ToTraversePath (q / a) h a := by
        refine ih _ _ fun j hj => ?_
        rw [Nat.div_div_eq_div_mul, Nat.div_div_eq_div_mul, ← pow_succ']
        exact hagree (j + 1) (Nat.succ_lt_succ hj)
      rw [u64ToTraversePath, u64ToTraversePath, if_neg ha, if_neg ha, h0, hrec]

theorem biguintToTraversePath_congr (a : Nat) :
    ∀ h p q, (∀ j < h, p / a ^ j % a = q / a ^ j % a) →
      biguintToTraversePath p h a = biguintToTraversePath q h a := by
  intro h
  induction h with
  | zero => intros; rfl
  | succ h ih =>
    intro p q hagree
    by_cases ha : a = 0
    · subst ha; rfl
    · have h0 : p % a = q % a := by simpa using hagree 0 (Nat.succ_pos h)
      have hrec : biguintToTraversePath (p / a) h a = biguintToTraversePath (q / a) h a := by
        refine ih _ _ fun j hj => ?_
        rw [Nat.div_div_eq_div_mul, Nat.div_div_eq_div_mul, ← pow_succ']
        exact hagree (j + 1) (Nat.succ_lt_succ hj)
      rw [biguintToTraversePath, biguintToTraversePath, if_neg ha, if_neg ha, h0, hrec]

theorem digit_of_mod_pow (a h i : Nat) : ∀ j < h, i % a ^ h / a ^ j % a = i / a ^ j % a := by
  intro j hj
  have hdvd : a ^ (j + 1) ∣ a ^ h := pow_dvd_pow a hj
  rw [Nat.div_mod_eq_mod_mul_div, Nat.div_mod_eq_mod_mul_div, ← pow_succ,
    Nat.mod_mod_of_dvd i hdvd]

/-! ## Claim theorems about the traversal-path codec -/

/-- C1: for every u64 index `i`, height `h` and (usize) arity `a ≥ 1`, the
u64 and BigUint implementations of `to_traverse_path` both return the
base-`a` digit sequence of `i` in bottom-up order: the entry at sequence
position `j` is `(i / a ^ j) % a` for every `j < h`. -/
theorem c1_traverse_path_digit_sequence (i h a : Nat) (ha : 1 ≤ a) (hsize : a < 2 ^ 64) :
    (i < 2 ^ 64 →
      u64ToTraversePath i h a = some ((List.range h).map fun j => i / a ^ j % a)) ∧
    biguintToTraversePath i h a = some ((List.range h).map fun j => i / a ^ j % a) := by
  have ha' : a ≠ 0 := Nat.one_le_iff_ne_zero.mp ha
  exact ⟨fun _ => by rw [u64ToTraversePath_eq_loop a ha' h i, traversePathLoop_closedForm],
    by rw [biguintToTraversePath_eq_loop a ha' hsize h i, traversePathLoop_closedForm]⟩

/-- Witness for C1 at `(i, h, a) = (11, 3, 2)`: the path of index 11 in a
binary tree of height 3 is `[1, 1, 0]` (11 = 0b1011, low digits first). -/
theorem c1_traverse_path_digit_sequence_witness :
    u64ToTraversePath 11 3 2 = some [1, 1, 0] ∧
    biguintToTraversePath 11 3 2 = some [1, 1, 0] := by
  have h := c1_traverse_path_digit_sequence 11 3 2 (by norm_num) (by norm_num)
  have h1 := h.1 (by norm_num)
  have h2 := h.2
  constructor
  · rw [h1]; rfl
  · rw [h2]; rfl

/-- C3 (counterexample): at `(i, h, a) = (0, 1, 0)` neither implementation
returns a sequence at all — the first `pos % arity` panics (division by
zero), modelled as `none` — so the claim's unrestricted quantification
over every arity fails. -/
theorem c3_counterexample_arity_zero :
    (¬ ∃ l, u64ToTraversePath 0 1 0 = some l ∧ l.length = 1 ∧ ∀ x ∈ l, x < 0) ∧
    ¬ ∃ l, biguintToTraversePath 0 1 0 = some l ∧ l.length = 1 ∧ ∀ x ∈ l, x < 0 := by
  constructor <;> rintro ⟨l, hl, -, -⟩ <;>
    simp [u64ToTraversePath, biguintToTraversePath] at hl

/-- C3 (amended: arity restricted to valid usize arities `a ≥ 1`; for
`a = 0` both implementations panic instead of returning a sequence): for
every index `i`, height `h` and arity `a` with `1 ≤ a < 2 ^ 64`, both
implementations return a sequence of length exactly `h` whose entries all
lie in `[0, a)`. -/
theorem c3_length_and_range (i h a : Nat) (ha : 1 ≤ a) (hsize : a < 2 ^ 64) :
    ∃ lu lb : List Nat,
      u64ToTraversePath i h a = some lu ∧ biguintToTraversePath i h a = some lb ∧
      lu.length = h ∧ lb.length = h ∧ (∀ x ∈ lu, x < a) ∧ ∀ x ∈ lb, x < a := by
  have ha' : a ≠ 0 := Nat.one_le_iff_ne_zero.mp ha
  exact ⟨traversePathLoop i h a, traversePathLoop i h a,
    u64ToTraversePath_eq_loop a ha' h i, biguintToTraversePath_eq_loop a ha' hsize h i,
    traversePathLoop_length a h i, traversePathLoop_length a h i,
    fun x => traversePathLoop_lt a ha' h i x, fun x => traversePathLoop_lt a ha' h i x⟩

/-- Witness for the amended C3 at `(i, h, a) = (5, 2, 3)`. -/
theorem c3_length_and_range_witness :
    ∃ lu lb : List Nat,
      u64ToTraversePath 5 2 3 = some lu ∧ biguintToTraversePath 5 2 3 = some lb ∧
      lu.length = 2 ∧ lb.length = 2 ∧ (∀ x ∈ lu, x < 3) ∧ ∀ x ∈ lb, x < 3 :=
  c3_length_and_range 5 2 3 (by norm_num) (by norm_num)

/-- C4 (counterexample): at `(i, h, a) = (5, 2, 0)` both implementations
hit a division by zero in the first iteration and panic (modelled as
`none`), so `to_traverse_path` is not total over arity 0 as the claim
states. -/
theorem c4_counterexample_arity_zero :
    u64ToTraversePath 5 2 0 = none ∧ biguintToTraversePath 5 2 0 = none := by
  constructor <;> rfl

/-- C4 (amended: totality holds for every arity `a` with `1 ≤ a < 2 ^ 64`,
i.e. every nonzero usize arity, but not for arity 0, where the modulo and
division operations panic): for every index and height, and every such
arity — including arity 1 and indices at or beyond `a ^ h` — both
implementations return a result, and in particular the BigUint
implementation's `to_usize().unwrap()` never fails there. -/
theorem c4_total_for_positive_arity (i h a : Nat) (ha : 1 ≤ a) (hsize : a < 2 ^ 64) :
    (u64ToTraversePath i h a).isSome ∧ (biguintToTraversePath i h a).isSome := by
  have ha' : a ≠ 0 := Nat.one_le_iff_ne_zero.mp ha
  rw [u64ToTraversePath_eq_loop a ha' h i, biguintToTraversePath_eq_loop a ha' hsize h i]
  exact ⟨rfl, rfl⟩

/-- Witness for the amended C4 at `(i, h, a) = (7, 5, 1)` (arity 1, index
beyond `1 ^ 5`). -/
theorem c4_total_for_positive_arity_witness :
    (u64ToTraversePath 7 5 1).isSome ∧ (biguintToTraversePath 7 5 1).isSome :=
  c4_total_for_positive_arity 7 5 1 (by norm_num) (by norm_num)

/-- C5: the traversal path depends only on the index modulo `a ^ h`: for
every index `i ≥ a ^ h`, both implementations map `i` and `i % a ^ h` to
the same result, so out-of-capacity indices decode to the path of their
low-order digits. -/
theorem c5_path_depends_on_index_mod_capacity (i h a : Nat) (_hge : a ^ h ≤ i) :
    u64ToTraversePath i h a = u64ToTraversePath (i % a ^ h) h a ∧
    biguintToTraversePath i h a = biguintToTraversePath (i % a ^ h) h a :=
  ⟨(u64ToTraversePath_congr a h (i % a ^ h) i (digit_of_mod_pow a h i)).symm,
    (biguintToTraversePath_congr a h (i % a ^ h) i (digit_of_mod_pow a h i)).symm⟩

/-- Witness for C5 at `(i, h, a) = (7, 1, 2)`: `2 ^ 1 ≤ 7` and the path of
7 equals the path of `7 % 2 = 1`. -/
theorem c5_path_depends_on_index_mod_capacity_witness :
    u64ToTraversePath 7 1 2 = u64ToTraversePath (7 % 2 ^ 1) 1 2 ∧
    biguintToTraversePath 7 1 2 = biguintToTraversePath (7 % 2 ^ 1) 1 2 :=
  c5_path_depends_on_index_mod_capacity 7 1 2 (by norm_num)

/-- C8: `to_traverse_path` is deterministic — two invocations with equal
arguments (index, height, arity) produce equal sequences for both the u64
and the BigUint implementations; the embedded functions take no input
other than those arguments. -/
theorem c8_traverse_path_deterministic (i₁ h₁ a₁ i₂ h₂ a₂ : Nat)
    (hi : i₁ = i₂) (hh : h₁ = h₂) (ha : a₁ = a₂) :
    u64ToTraversePath i₁ h₁ a₁ = u64ToTraversePath i₂ h₂ a₂ ∧
    biguintToTraversePath i₁ h₁ a₁ = biguintToTraversePath i₂ h₂ a₂ := by
  subst hi hh ha
  exact ⟨rfl, rfl⟩

/-- Witness for C8 at `(4, 3, 2)` twice. -/
theorem c8_traverse_path_deterministic_witness :
    u64ToTraversePath 4 3 2 = u64ToTraversePath 4 3 2 ∧
    biguintToTraversePath 4 3 2 = biguintToTraversePath 4 3 2 :=
  c8_traverse_path_deterministic 4 3 2 4 3 2 rfl rfl rfl

/-- C9: the fixed-width and arbitrary-precision codecs agree: for every
u64 index `i` (`i < 2 ^ 64`), height `h` and usize arity `a` with
`1 ≤ a < 2 ^ 64`, the BigUint implementation returns exactly the same
sequence as the u64 implementation. -/
theorem c9_codecs_agree (i h a : Nat) (_hi : i < 2 ^ 64) (ha : 1 ≤ a) (hsize : a < 2 ^ 64) :
    biguintToTraversePath i h a = u64ToTraversePath i h a := by
  have ha' : a ≠ 0 := Nat.one_le_iff_ne_zero.mp ha
  rw [u64ToTraversePath_eq_loop a ha' h i, biguintToTraversePath_eq_loop a ha' hsize h i]

/-- Witness for C9 at `(i, h, a) = (12, 4, 3)`. -/
theorem c9_codecs_agree_witness :
    biguintToTraversePath 12 4 3 = u64ToTraversePath 12 4 3 :=
  c9_codecs_agree 12 4 3 (by norm_num) (by norm_num) (by norm_num)

/-! ## Claim theorems about extend, expect_ok and MerkleCommitment -/

theorem extendPush_cons {S E : Type} (pushFn : S → E → S × Option PrimitivesError)
    (s : S) (e : E) (rest : List E) :
    extendPush pushFn s (e :: rest) =
      match pushFn s e with
      | (s', none) => extendPush pushFn s' rest
      | (s', some err) => (s', some err) := rfl

theorem extendPush_append_fail {S E : Type} (pushFn : S → E → S × Option PrimitivesError)
    (y : E) (ys : List E) (s'' : S) (err : PrimitivesError) :
    ∀ (xs : List E) (s s' : S), extendPush pushFn s xs = (s', none) →
      pushFn s' y = (s'', some err) →
      extendPush pushFn s (xs ++ y :: ys) = (s'', some err) := by
  intro xs
  induction xs with
  | nil =>
    intro s s' hxs hy
    rw [extendPush] at hxs
    injection hxs with h1 h2
    subst h1
    rw [List.nil_append, extendPush_cons, hy]
  | cons x rest ih =>
    intro s s' hxs hy
    rw [extendPush_cons] at hxs
    rw [List.cons_append, extendPush_cons]
    rcases hp : pushFn s x with ⟨t, oe⟩
    rw [hp] at hxs
    cases oe with
    | none => exact ih t s' hxs hy
    | some e =>
      have := congrArg Prod.snd hxs
      simp at this

theorem extendPush_none_iff {S E : Type} (pushFn : S → E → S × Option PrimitivesError) :
    ∀ (es : List E) (s : S),
      (extendPush pushFn s es).2 = none ↔ allPushesOk pushFn s es = true := by
  intro es
  induction es with
  | nil => intro s; rw [extendPush, allPushesOk]; simp
  | cons e rest ih =>
    intro s
    rw [extendPush_cons, allPushesOk]
    rcases hp : pushFn s e with ⟨t, oe⟩
    cases oe with
    | none => exact ih t
    | some err => simp

/-- C6: the provided `extend` performs `push` on each element in iteration
order and stops at the first failing push, returning its error with the
state that push left (elements pushed before the failure stay inserted and
the remaining elements are never pushed); and `extend` returns `Ok` if and
only if every push in the sequential run returned `Ok`. -/
theorem c6_extend_sequential_push {S E : Type} (pushFn : S → E → S × Option PrimitivesError)
    (s : S) (s' s'' : S) (xs ys es : List E) (y : E) (err : PrimitivesError) :
    (extendPush pushFn s xs = (s', none) → pushFn s' y = (s'', some err) →
      extendPush pushFn s (xs ++ y :: ys) = (s'', some err)) ∧
    ((extendPush pushFn s es).2 = none ↔ allPushesOk pushFn s es = true) :=
  ⟨fun hxs hy => extendPush_append_fail pushFn y ys s'' err xs s s' hxs hy,
    extendPush_none_iff pushFn es s⟩

/-- Witness for C6: the toy capacity-2 accumulator accepts `1, 2`, fails on
`3` with `CapacityExceeded`, keeps `[1, 2]`, and never pushes `4`. -/
theorem c6_extend_sequential_push_witness :
    extendPush toyPush [] [1, 2, 3, 4] = ([1, 2], some PrimitivesError.CapacityExceeded) ∧
    ((extendPush toyPush [] [1, 2]).2 = none ↔ allPushesOk toyPush [] [1, 2] = true) := by
  have h := c6_extend_sequential_push toyPush [] [1, 2] [1, 2] [1, 2] [4] [1, 2] 3
    PrimitivesError.CapacityExceeded
  exact ⟨h.1 (by decide) (by decide), h.2⟩

/-- C7: `expect_ok` returns `Ok((x, proof))` exactly when the
`LookupResult` is `Ok(x, proof)`, and on `NotInMemory` or `EmptyLeaf` it
returns an `Err` carrying `PrimitivesError::InternalError`. -/
theorem c7_expect_ok_characterization {F P : Type} (r : LookupResult F P) :
    (∀ (x : F) (pf : P), r.expect_ok = Except.ok (x, pf) ↔ r = .Ok x pf) ∧
    ((r = .NotInMemory ∨ r = .EmptyLeaf) →
      ∃ msg, r.expect_ok = Except.error (.InternalError msg)) := by
  constructor
  · intro x pf
    cases r <;> simp [LookupResult.expect_ok]
  · rintro (rfl | rfl)
    · exact ⟨_, rfl⟩
    · exact ⟨_, rfl⟩

/-- Witness for C7: `NotInMemory.expect_ok` is an `InternalError`. -/
theorem c7_expect_ok_characterization_witness :
    ∃ msg, (LookupResult.NotInMemory : LookupResult Nat Nat).expect_ok =
      Except.error (.InternalError msg) :=
  (c7_expect_ok_characterization LookupResult.NotInMemory).2 (Or.inl rfl)

/-- C10: equality of `MerkleCommitment` values is componentwise — two
commitments are equal iff their `root_value`, `height` and `num_leaves`
fields are equal; the structure holds no other data. -/
theorem c10_commitment_componentwise_eq {I T : Type} (c₁ c₂ : MerkleCommitment I T) :
    c₁ = c₂ ↔
      c₁.root_value = c₂.root_value ∧ c₁.height = c₂.height ∧
        c₁.num_leaves = c₂.num_leaves := by
  cases c₁
  cases c₂
  simp [MerkleCommitment.mk.injEq]

/-! ## Round-trip membership lemmas -/

theorem nodeDigest_levelUp {T : Type} (hashNode : List T → T) (a : Nat) (L : Nat → T) :
    ∀ lvl s, nodeDigest hashNode a L (lvl + 1) (a * s) =
      nodeDigest hashNode a (levelUp hashNode a L) lvl s := by
  intro lvl
  induction lvl with
  | zero =>
    intro s
    simp [nodeDigest, levelUp]
  | succ lvl ih =>
    intro s
    rw [nodeDigest, nodeDigest]
    congr 1
    have hfun : (fun t => nodeDigest hashNode a L (lvl + 1) (a * s + t * a ^ (lvl + 1))) =
        fun t => nodeDigest hashNode a (levelUp hashNode a L) lvl (s + t * a ^ lvl) := by
      funext t
      have harg : a * s + t * a ^ (lvl + 1) = a * (s + t * a ^ lvl) := by ring
      rw [harg, ih]
    rw [hfun]

theorem siblingGroup_levelUp {T : Type} (hashNode : List T → T) (a : Nat) (L : Nat → T)
    (lvl p : Nat) :
    siblingGroup hashNode a L (lvl + 1) p =
      siblingGroup hashNode a (levelUp hashNode a L) lvl (p / a) := by
  have hsel : p / a / a ^ lvl = p / a ^ (lvl + 1) := by
    rw [Nat.div_div_eq_div_mul, ← pow_succ']
  have hdiv : p / a / a ^ (lvl + 1) = p / a ^ (lvl + 2) := by
    rw [Nat.div_div_eq_div_mul, ← pow_succ']
  rw [siblingGroup, siblingGroup]
  simp only [hsel, hdiv]
  have harg : ∀ t : Nat,
      nodeDigest hashNode a (levelUp hashNode a L) lvl
          (a ^ (lvl + 1) * (p / a ^ (lvl + 2)) + t * a ^ lvl) =
        nodeDigest hashNode a L (lvl + 1) (a ^ (lvl + 2) * (p / a ^ (lvl + 2)) + t * a ^ (lvl + 1)) := by
    intro t
    rw [← nodeDigest_levelUp]
    congr 1
    ring
  simp only [harg]

theorem buildProofSiblings_succ {T : Type} (hashNode : List T → T) (a : Nat) (L : Nat → T)
    (h p : Nat) :
    buildProofSiblings hashNode a L (h + 1) p =
      siblingGroup hashNode a L 0 p ::
        buildProofSiblings hashNode a (levelUp hashNode a L) h (p / a) := by
  rw [buildProofSiblings, buildProofSiblings, List.range_succ_eq_map, List.map_cons,
    List.map_map]
  congr 1
  have hfun : ((fun lvl => siblingGroup hashNode a L lvl p) ∘ Nat.succ) =
      fun lvl => siblingGroup hashNode a (levelUp hashNode a L) lvl (p / a) := by
    funext lvl
    simp only [Function.comp_apply]
    exact siblingGroup_levelUp hashNode a L lvl p
  rw [hfun]

theorem range_insert_middle {T : Type} (f : Nat → T) (sel a : Nat) (hsel : sel < a) :
    (List.range sel).map f ++
        f sel :: (List.range (a - 1 - sel)).map (fun t => f (sel + 1 + t)) =
      (List.range a).map f := by
  have ha : a = sel + 1 + (a - 1 - sel) := by omega
  conv_rhs => rw [ha]
  rw [List.range_add, List.map_append, List.range_succ, List.map_append, List.map_map]
  simp [Function.comp_def, Nat.add_assoc]

theorem siblingGroup_length {T : Type} (hashNode : List T → T) (a : Nat) (L : Nat → T)
    (lvl p : Nat) (ha : 1 ≤ a) :
    (siblingGroup hashNode a L lvl p).length = a - 1 := by
  have hsel : p / a ^ lvl % a < a := Nat.mod_lt _ ha
  rw [siblingGroup]
  simp only [List.length_append, List.length_map, List.length_range]
  omega

theorem foldPath_cons {T : Type} (hashNode : List T → T) (sel : Nat) (g : List T)
    (rest : List (Nat × List T)) (cur : T) :
    foldPath hashNode ((sel, g) :: rest) cur =
      foldPath hashNode rest (hashNode (g.take sel ++ cur :: g.drop sel)) := rfl

theorem insert_leaf_block {T : Type} (L : Nat → T) (s sel a : Nat) (hsel : sel < a) :
    ((List.range sel).map fun t => L (s + t)) ++
        L (s + sel) :: ((List.range (a - 1 - sel)).map fun t => L (s + (sel + 1 + t))) =
      (List.range a).map fun t => L (s + t) := by
  have h := range_insert_middle (fun t => L (s + t)) sel a hsel
  simpa using h

theorem fold_step {T : Type} (hashNode : List T → T) (a : Nat) (L : Nat → T) (p : Nat)
    (ha : 1 ≤ a) :
    hashNode ((siblingGroup hashNode a L 0 p).take (p % a) ++
        L p :: (siblingGroup hashNode a L 0 p).drop (p % a)) =
      levelUp hashNode a L (p / a) := by
  have hsel : p % a < a := Nat.mod_lt _ ha
  rw [siblingGroup]
  simp only [zero_add, pow_zero, pow_one, Nat.div_one, mul_one, nodeDigest]
  have htake :
      (((List.range (p % a)).map fun t => L (a * (p / a) + t)) ++
          (List.range (a - 1 - p % a)).map fun t => L (a * (p / a) + (p % a + 1 + t))).take
        (p % a) = (List.range (p % a)).map fun t => L (a * (p / a) + t) := by
    rw [List.take_append_of_le_length (by simp), List.take_of_length_le (by simp)]
  have hdrop :
      (((List.range (p % a)).map fun t => L (a * (p / a) + t)) ++
          (List.range (a - 1 - p % a)).map fun t => L (a * (p / a) + (p % a + 1 + t))).drop
        (p % a) = (List.range (a - 1 - p % a)).map fun t => L (a * (p / a) + (p % a + 1 + t)) := by
    rw [List.drop_append_of_le_length (by simp), List.drop_of_length_le (by simp)]
    simp
  rw [htake, hdrop]
  have hLp : L p = L (a * (p / a) + p % a) := by rw [Nat.div_add_mod]
  rw [hLp, insert_leaf_block L (a * (p / a)) (p % a) a hsel]
  rfl

theorem foldPath_reconstructs_root {T : Type} (hashNode : List T → T) (a : Nat)
    (ha : 1 ≤ a) :
    ∀ (h : Nat) (L : Nat → T) (p : Nat), p < a ^ h →
      foldPath hashNode
          ((traversePathLoop p h a).zip (buildProofSiblings hashNode a L h p)) (L p) =
        nodeDigest hashNode a L h 0 := by
  intro h
  induction h with
  | zero =>
    intro L p hp
    have hp0 : p = 0 := by simpa using hp
    subst hp0
    rfl
  | succ h ih =>
    intro L p hp
    have hdiv : p / a < a ^ h := by
      refine Nat.div_lt_of_lt_mul ?_
      rw [← pow_succ']
      exact hp
    rw [traversePathLoop, buildProofSiblings_succ, List.zip_cons_cons, foldPath_cons,
      fold_step hashNode a L p ha, ih (levelUp hashNode a L) (p / a) hdiv,
      ← nodeDigest_levelUp hashNode a L h 0, mul_zero]

theorem verifyAgainst_fresh_proof {E T : Type} [DecidableEq T] (hashNode : List T → T)
    (hashLeaf : Nat → E → T) (a : Nat) (ha : 1 ≤ a) (h : Nat) (L : Nat → T) (p : Nat)
    (hp : p < a ^ h) (e : E) (hL : L p = hashLeaf p e) :
    verifyAgainst hashNode hashLeaf a (nodeDigest hashNode a L h 0) h p
      ⟨e, buildProofSiblings hashNode a L h p⟩ = .ok true := by
  rw [verifyAgainst]
  rw [if_neg (by simp [buildProofSiblings])]
  rw [if_neg ?hlen]
  case hlen =>
    rw [Bool.not_eq_true, List.any_eq_false]
    intro g hg
    rw [buildProofSiblings, List.mem_map] at hg
    obtain ⟨lvl, -, hEq⟩ := hg
    rw [← hEq]
    simp [siblingGroup_length hashNode a L lvl p ha]
  have hfold := foldPath_reconstructs_root hashNode a ha h L p hp
  rw [hL] at hfold
  simp only [hfold]
  simp

theorem lookup_mem {E : Type} : ∀ (kvs : List (Nat × E)) (p : Nat) (e : E),
    kvs.lookup p = some e → ∃ kv ∈ kvs, kv.1 = p ∧ kv.2 = e := by
  intro kvs p e h
  induction kvs with
  | nil => simp [List.lookup] at h
  | cons hd tl ih =>
    rw [List.lookup] at h
    by_cases hb : p == hd.1
    · simp only [hb, if_pos] at h
      refine ⟨hd, by simp, ?_, by simpa using h⟩
      exact (Nat.beq_eq_true_eq p hd.1 ▸ hb :).symm
    · simp only [Bool.not_eq_true] at hb
      rw [hb] at h
      obtain ⟨kv, hmem, hk, hv⟩ := ih h
      exact ⟨kv, by simp [hmem], hk, hv⟩

/-- C2: every tree built by `from_elems`, and every tree built by
`from_kv_set`, satisfies round-trip membership at every occupied position:
`lookup` returns `Ok(element, proof)` and `verify` accepts that fresh
proof with `Ok(true)`. Stated for an arbitrary digest capability and every
arity `a ≥ 1`. -/
theorem c2_round_trip_membership {E T : Type} [DecidableEq T]
    (hashNode : List T → T) (hashLeaf : Nat → E → T) (emptyVal : T)
    (a h : Nat) (ha : 1 ≤ a) (elems : List E) (kvs : List (Nat × E))
    (t₁ : AppendTree E) (t₂ : SparseTree E) (p q : Nat) :
    (fromElems a h elems = .ok t₁ → p < elems.length →
      ∃ e pf, t₁.lookup hashNode hashLeaf emptyVal a p = .Ok e pf ∧
        t₁.verify hashNode hashLeaf emptyVal a p pf = .ok true) ∧
    (fromKvSet a h kvs = .ok t₂ → (kvs.lookup q).isSome →
      ∃ e pf, t₂.lookup hashNode hashLeaf emptyVal a q = .Ok e pf ∧
        t₂.verify hashNode hashLeaf emptyVal a q pf = .ok true) := by
  constructor
  · intro hfe hp
    rw [fromElems] at hfe
    by_cases hcap : a ^ h < elems.length
    · rw [if_pos hcap] at hfe
      exact absurd hfe (by simp)
    · rw [if_neg hcap] at hfe
      injection hfe with ht
      subst ht
      obtain ⟨e, he⟩ : ∃ e, elems.get? p = some e := by
        rw [List.get?_eq_get hp]
        exact ⟨_, rfl⟩
      refine ⟨e, ⟨e, buildProofSiblings hashNode a (leafFun hashLeaf emptyVal elems) h p⟩,
        ?_, ?_⟩
      · simp only [AppendTree.lookup, he]
      · exact verifyAgainst_fresh_proof hashNode hashLeaf a ha h
          (leafFun hashLeaf emptyVal elems) p (lt_of_lt_of_le hp (Nat.le_of_not_lt hcap)) e
          (by simp only [leafFun, he])
  · intro hfk hq
    rw [fromKvSet] at hfk
    by_cases hcap : (kvs.any fun kv => decide (a ^ h ≤ kv.1)) = true
    · rw [if_pos hcap] at hfk
      exact absurd hfk (by simp)
    · rw [if_neg hcap] at hfk
      injection hfk with ht
      subst ht
      obtain ⟨e, he⟩ := Option.isSome_iff_exists.mp hq
      obtain ⟨kv, hmem, hk, hv⟩ := lookup_mem kvs q e he
      have hqcap : q < a ^ h := by
        rw [Bool.not_eq_true, List.any_eq_false] at hcap
        have hkv := hcap kv hmem
        simp only [decide_eq_true_eq] at hkv
        omega
      refine ⟨e, ⟨e, buildProofSiblings hashNode a (leafFunKV hashLeaf emptyVal kvs) h q⟩,
        ?_, ?_⟩
      · simp only [SparseTree.lookup, he]
      · exact verifyAgainst_fresh_proof hashNode hashLeaf a ha h
          (leafFunKV hashLeaf emptyVal kvs) q hqcap e (by simp only [leafFunKV, he])

/-- Witness for C2: an arity-2, height-2 tree over the toy digest; the
dense tree holds `[10, 20, 30]` and is queried at occupied position 1, the
sparse tree holds `{0 ↦ 5, 3 ↦ 7}` and is queried at occupied position
3. -/
theorem c2_round_trip_membership_witness :
    (∃ e pf, (AppendTree.mk 2 [10, 20, 30]).lookup toyHashNode toyHashLeaf 0 2 1 = .Ok e pf ∧
      (AppendTree.mk 2 [10, 20, 30]).verify toyHashNode toyHashLeaf 0 2 1 pf = .ok true) ∧
    (∃ e pf, (SparseTree.mk 2 [(0, 5), (3, 7)]).lookup toyHashNode toyHashLeaf 0 2 3 = .Ok e pf ∧
      (SparseTree.mk 2 [(0, 5), (3, 7)]).verify toyHashNode toyHashLeaf 0 2 3 pf = .ok true) := by
  have hc := c2_round_trip_membership toyHashNode toyHashLeaf 0 2 2 (by norm_num)
    [10, 20, 30] [(0, 5), (3, 7)] ⟨2, [10, 20, 30]⟩ ⟨2, [(0, 5), (3, 7)]⟩ 1 3
  exact ⟨hc.1 rfl (by norm_num), hc.2 rfl rfl⟩

end Jellyfish
